import Mathlib

/-!
Verification of the web-automation recipe recorder and runner.

The development embeds the two source modules:

* `recorder.py` — the live deduplication pass (`_add_step` plus the
  end-of-recording flush), the batch pass (`_collapse_fills`), placeholder
  extraction (`_extract_placeholders`), the save path (`_save_recipe`) and the
  injected `getUniqueSelector` page script.
* `runner.py` — the replay loop (`run_recipe`) driving the external browser.

Steps are the recorded records: an `action` tag plus its payload fields.
The `timestamp` field is produced by an external clock and is never inspected
by any algorithm in the sources (array position is the ordering authority), so
it is omitted from the model.
-/

inductive Step where
  | navigate (url : String)
  | click (selector text : String)
  | fill (selector value : String)
  | prompt (message : String)
  | wait (delay : Nat)
deriving DecidableEq

/-- Model of a CPython `dict` keyed by selector strings: an insertion-ordered
association list.  `updateAssoc` is `d[k] = v`: an existing key keeps its
original position and only its value is replaced; a fresh key is appended at
the end, matching dict insertion order. -/
def updateAssoc (m : List (String × Step)) (k : String) (v : Step) :
    List (String × Step) :=
  match m with
  | [] => [(k, v)]
  | (k0, v0) :: rest =>
    if k0 = k then (k, v) :: rest else (k0, v0) :: updateAssoc rest k v

/-- `d.values()` in insertion order. -/
def vals (m : List (String × Step)) : List Step := m.map Prod.snd

/-- `d.keys()` in insertion order. -/
def keys (m : List (String × Step)) : List String := m.map Prod.fst

/-- The loop body of `RecipeRecorder._collapse_fills`, with the `last_fills`
dict as accumulator: a fill overwrites the pending entry for its selector; any
other action first flushes all pending fills (dict value order), resets the
dict and then emits the action itself; at end of stream the remainder is
flushed. -/
def collapseAux : List Step → List (String × Step) → List Step
  | [], m => vals m
  | .fill sel v :: rest, m => collapseAux rest (updateAssoc m sel (.fill sel v))
  | .navigate u :: rest, m => vals m ++ .navigate u :: collapseAux rest []
  | .click sel t :: rest, m => vals m ++ .click sel t :: collapseAux rest []
  | .prompt msg :: rest, m => vals m ++ .prompt msg :: collapseAux rest []
  | .wait d :: rest, m => vals m ++ .wait d :: collapseAux rest []

/-- `RecipeRecorder._collapse_fills`. -/
def collapse_fills (steps : List Step) : List Step := collapseAux steps []

/-- Recorder capture state: `self.steps` plus the live-dedup dict
`self._last_fill_for_selector`. -/
structure RecState where
  steps : List Step
  pending : List (String × Step)
deriving DecidableEq

/-- `RecipeRecorder._add_step`: a fill overwrites the pending entry for its
selector; any other action first flushes all pending fills into `self.steps`,
clears the dict, then appends the action itself. -/
def addStep (st : RecState) (s : Step) : RecState :=
  match s with
  | .fill sel v => ⟨st.steps, updateAssoc st.pending sel (.fill sel v)⟩
  | .navigate u => ⟨st.steps ++ vals st.pending ++ [.navigate u], []⟩
  | .click sel t => ⟨st.steps ++ vals st.pending ++ [.click sel t], []⟩
  | .prompt msg => ⟨st.steps ++ vals st.pending ++ [.prompt msg], []⟩
  | .wait d => ⟨st.steps ++ vals st.pending ++ [.wait d], []⟩

/-- The live pass over a whole capture session: feed every event through
`_add_step` starting from a fresh recorder, then perform the end-of-recording
flush of pending fills done at the top of `_save_recipe`. -/
def liveReduce (events : List Step) : List Step :=
  let final := events.foldl addStep ⟨[], []⟩
  final.steps ++ vals final.pending

theorem foldl_addStep_spec (events : List Step) (st : RecState) :
    (events.foldl addStep st).steps ++ vals (events.foldl addStep st).pending
      = st.steps ++ collapseAux events st.pending := by
  induction events generalizing st with
  | nil => simp [collapseAux]
  | cons e rest ih =>
    cases e with
    | fill sel v =>
      simp only [List.foldl_cons, addStep, collapseAux]
      exact ih ⟨st.steps, updateAssoc st.pending sel (.fill sel v)⟩
    | navigate u =>
      simp only [List.foldl_cons, addStep, collapseAux]
      rw [ih ⟨st.steps ++ vals st.pending ++ [Step.navigate u], []⟩]
      simp
    | click sel t =>
      simp only [List.foldl_cons, addStep, collapseAux]
      rw [ih ⟨st.steps ++ vals st.pending ++ [Step.click sel t], []⟩]
      simp
    | prompt msg =>
      simp only [List.foldl_cons, addStep, collapseAux]
      rw [ih ⟨st.steps ++ vals st.pending ++ [Step.prompt msg], []⟩]
      simp
    | wait d =>
      simp only [List.foldl_cons, addStep, collapseAux]
      rw [ih ⟨st.steps ++ vals st.pending ++ [Step.wait d], []⟩]
      simp

/-- The live pass computes exactly the batch pass. -/
theorem liveReduce_eq_collapse (events : List Step) :
    liveReduce events = collapse_fills events := by
  unfold liveReduce collapse_fills
  simpa using foldl_addStep_spec events ⟨[], []⟩

/-- Well-formed `last_fills` dict: keys are distinct and each entry stores a
fill step on its own key, exactly the shape `_collapse_fills` maintains. -/
def MapWF (m : List (String × Step)) : Prop :=
  (keys m).Nodup ∧ ∀ p ∈ m, ∃ v, p.2 = Step.fill p.1 v

theorem updateAssoc_of_not_mem {m : List (String × Step)} {k : String}
    (v : Step) (h : k ∉ keys m) : updateAssoc m k v = m ++ [(k, v)] := by
  induction m with
  | nil => rfl
  | cons p rest ih =>
    obtain ⟨k0, v0⟩ := p
    simp only [keys, List.map_cons, List.mem_cons, not_or] at h
    have hne : ¬ k0 = k := fun he => h.1 he.symm
    simp only [updateAssoc, if_neg hne, List.cons_append]
    rw [ih (by simpa [keys] using h.2)]

theorem keys_updateAssoc (m : List (String × Step)) (k : String) (v : Step) :
    keys (updateAssoc m k v) = if k ∈ keys m then keys m else keys m ++ [k] := by
  induction m with
  | nil => simp [updateAssoc, keys]
  | cons p rest ih =>
    obtain ⟨k0, v0⟩ := p
    by_cases hk : k0 = k
    · subst hk
      simp [updateAssoc, keys]
    · have hne : ¬ k = k0 := fun he => hk he.symm
      simp only [updateAssoc, if_neg hk]
      rw [show keys ((k0, v0) :: updateAssoc rest k v)
            = k0 :: keys (updateAssoc rest k v) from rfl, ih,
        show keys ((k0, v0) :: rest) = k0 :: keys rest from rfl]
      by_cases hmem : k ∈ keys rest
      · simp [hmem, hne]
      · simp [hmem, hne]

theorem updateAssoc_entries {m : List (String × Step)} {k : String} {v : String}
    (hm : ∀ p ∈ m, ∃ w, p.2 = Step.fill p.1 w) :
    ∀ p ∈ updateAssoc m k (Step.fill k v), ∃ w, p.2 = Step.fill p.1 w := by
  induction m with
  | nil =>
    intro p hp
    simp only [updateAssoc, List.mem_singleton] at hp
    exact ⟨v, by simp [hp]⟩
  | cons q rest ih =>
    obtain ⟨k0, v0⟩ := q
    intro p hp
    by_cases hk : k0 = k
    · rw [show updateAssoc ((k0, v0) :: rest) k (Step.fill k v)
          = (k, Step.fill k v) :: rest from by simp [updateAssoc, hk]] at hp
      rw [List.mem_cons] at hp
      rcases hp with hp | hp
      · exact ⟨v, by simp [hp]⟩
      · exact hm p (List.mem_cons_of_mem _ hp)
    · simp only [updateAssoc, if_neg hk, List.mem_cons] at hp
      rcases hp with hp | hp
      · exact hm p (by simp [hp])
      · exact ih (fun q hq => hm q (List.mem_cons_of_mem _ hq)) p hp

theorem mapWF_updateAssoc {m : List (String × Step)} (hm : MapWF m)
    (k v : String) : MapWF (updateAssoc m k (Step.fill k v)) := by
  refine ⟨?_, updateAssoc_entries hm.2⟩
  rw [keys_updateAssoc]
  by_cases hmem : k ∈ keys m
  · simpa [hmem] using hm.1
  · rw [if_neg hmem, List.nodup_append]
    refine ⟨hm.1, List.nodup_singleton _, ?_⟩
    intro a ha hb
    rw [List.mem_singleton] at hb
    exact hmem (hb ▸ ha)

/-- Scans a step list and checks that within every maximal run of consecutive
fill steps all selectors are pairwise distinct; `seen` carries the selectors
already met in the current run. -/
def goodAux : List Step → List String → Bool
  | [], _ => true
  | .fill sel _ :: rest, seen => !(decide (sel ∈ seen)) && goodAux rest (sel :: seen)
  | .navigate _ :: rest, _ => goodAux rest []
  | .click _ _ :: rest, _ => goodAux rest []
  | .prompt _ :: rest, _ => goodAux rest []
  | .wait _ :: rest, _ => goodAux rest []

/-- Walking over the flushed values of a well-formed dict keeps the scan
happy and records the dict keys as seen. -/
theorem goodAux_vals_append {m : List (String × Step)} (hm : MapWF m)
    (l : List Step) (seen : List String) (hdisj : ∀ k ∈ keys m, k ∉ seen) :
    goodAux (vals m ++ l) seen = goodAux l ((keys m).reverse ++ seen) := by
  induction m generalizing seen with
  | nil => simp [vals, keys]
  | cons p rest ih =>
    obtain ⟨k, st⟩ := p
    obtain ⟨v, hv⟩ := hm.2 (k, st) (List.mem_cons_self _ _)
    simp only at hv
    subst hv
    have hnodup : (k :: keys rest).Nodup := hm.1
    have hk_notin_rest : k ∉ keys rest := (List.nodup_cons.mp hnodup).1
    have hk_notin_seen : k ∉ seen := hdisj k (List.mem_cons_self _ _)
    have hrest : MapWF rest :=
      ⟨(List.nodup_cons.mp hnodup).2,
       fun q hq => hm.2 q (List.mem_cons_of_mem _ hq)⟩
    show goodAux (Step.fill k v :: (vals rest ++ l)) seen = _
    simp only [goodAux, decide_eq_false hk_notin_seen, Bool.not_false, Bool.true_and]
    rw [ih hrest (k :: seen)
      (by intro k2 hk2
          have hne : k2 ≠ k := fun he => hk_notin_rest (he ▸ hk2)
          simp only [List.mem_cons, not_or]
          exact ⟨hne, hdisj k2 (List.mem_cons_of_mem _ hk2)⟩)]
    rw [show keys ((k, Step.fill k v) :: rest) = k :: keys rest from rfl]
    simp [List.append_assoc]

/-- The batch pass always emits a scan-clean sequence. -/
theorem goodAux_collapseAux (steps : List Step) (m : List (String × Step))
    (hm : MapWF m) : goodAux (collapseAux steps m) [] = true := by
  induction steps generalizing m with
  | nil =>
    have := goodAux_vals_append hm [] [] (by simp)
    simpa [collapseAux, goodAux] using this
  | cons s rest ih =>
    have hnil : MapWF ([] : List (String × Step)) := ⟨List.nodup_nil, by simp⟩
    cases s with
    | fill sel v =>
      simpa [collapseAux] using
        ih (updateAssoc m sel (.fill sel v)) (mapWF_updateAssoc hm sel v)
    | navigate u =>
      show goodAux (vals m ++ Step.navigate u :: collapseAux rest []) [] = true
      rw [goodAux_vals_append hm _ [] (by simp)]
      simpa [goodAux] using ih [] hnil
    | click a b =>
      show goodAux (vals m ++ Step.click a b :: collapseAux rest []) [] = true
      rw [goodAux_vals_append hm _ [] (by simp)]
      simpa [goodAux] using ih [] hnil
    | prompt msg =>
      show goodAux (vals m ++ Step.prompt msg :: collapseAux rest []) [] = true
      rw [goodAux_vals_append hm _ [] (by simp)]
      simpa [goodAux] using ih [] hnil
    | wait d =>
      show goodAux (vals m ++ Step.wait d :: collapseAux rest []) [] = true
      rw [goodAux_vals_append hm _ [] (by simp)]
      simpa [goodAux] using ih [] hnil

/-- A scan-clean sequence is a fixed point of the batch pass. -/
theorem collapseAux_fixed (l : List Step) (m : List (String × Step))
    (seen : List String) (hseen : ∀ x, x ∈ seen ↔ x ∈ keys m)
    (hgood : goodAux l seen = true) : collapseAux l m = vals m ++ l := by
  induction l generalizing m seen with
  | nil => simp [collapseAux]
  | cons s rest ih =>
    cases s with
    | fill sel v =>
      simp only [goodAux, Bool.and_eq_true, Bool.not_eq_true',
        decide_eq_false_iff_not] at hgood
      have hnotin : sel ∉ keys m := fun h => hgood.1 ((hseen sel).mpr h)
      show collapseAux rest (updateAssoc m sel (Step.fill sel v)) = _
      rw [updateAssoc_of_not_mem _ hnotin,
        ih (m ++ [(sel, Step.fill sel v)]) (sel :: seen)
          (by intro x
              simp [keys, List.mem_cons, hseen x, or_comm]) hgood.2]
      simp [vals]
    | navigate u =>
      simp only [goodAux] at hgood
      show vals m ++ Step.navigate u :: collapseAux rest [] = _
      rw [ih [] [] (by simp [keys]) hgood]
      simp [vals]
    | click a b =>
      simp only [goodAux] at hgood
      show vals m ++ Step.click a b :: collapseAux rest [] = _
      rw [ih [] [] (by simp [keys]) hgood]
      simp [vals]
    | prompt msg =>
      simp only [goodAux] at hgood
      show vals m ++ Step.prompt msg :: collapseAux rest [] = _
      rw [ih [] [] (by simp [keys]) hgood]
      simp [vals]
    | wait d =>
      simp only [goodAux] at hgood
      show vals m ++ Step.wait d :: collapseAux rest [] = _
      rw [ih [] [] (by simp [keys]) hgood]
      simp [vals]

theorem collapse_fills_idem (steps : List Step) :
    collapse_fills (collapse_fills steps) = collapse_fills steps := by
  have hgood := goodAux_collapseAux steps [] ⟨List.nodup_nil, by simp⟩
  unfold collapse_fills
  simpa [vals] using
    collapseAux_fixed (collapseAux steps []) [] [] (by simp [keys]) hgood

/-- C1: for every raw captured event stream, running the live deduplication
pass (`_add_step` for each event, then the end-of-recording flush of pending
fills) followed by the batch pass `_collapse_fills` yields exactly the step
sequence obtained by applying `_collapse_fills` once to the raw stream. -/
theorem c1_live_then_batch_eq_batch (events : List Step) :
    collapse_fills (liveReduce events) = collapse_fills events := by
  rw [liveReduce_eq_collapse]
  exact collapse_fills_idem events

/-- C2: the batch deduplication pass `_collapse_fills` is idempotent. -/
theorem c2_collapse_fills_idempotent (steps : List Step) :
    collapse_fills (collapse_fills steps) = collapse_fills steps :=
  collapse_fills_idem steps

/-- Two steps are both fill actions on the same selector. -/
def sameSelFill : Step → Step → Bool
  | .fill s _, .fill t _ => decide (s = t)
  | _, _ => false

/-- No two adjacent steps are fills on the same selector. -/
def noAdjSameFill : List Step → Bool
  | a :: b :: rest => !sameSelFill a b && noAdjSameFill (b :: rest)
  | _ => true

theorem noAdjSameFill_of_goodAux {l : List Step} {seen : List String}
    (h : goodAux l seen = true) : noAdjSameFill l = true := by
  induction l generalizing seen with
  | nil => rfl
  | cons a rest ih =>
    cases rest with
    | nil => cases a <;> rfl
    | cons b rest2 =>
      cases a with
      | fill sa va =>
        simp only [goodAux, Bool.and_eq_true, Bool.not_eq_true',
          decide_eq_false_iff_not] at h
        have htail : noAdjSameFill (b :: rest2) = true := ih h.2
        cases b with
        | fill sb vb =>
          simp only [goodAux, Bool.and_eq_true, Bool.not_eq_true',
            decide_eq_false_iff_not] at h
          have hne : sb ≠ sa := fun he => h.2.1 (by simp [he])
          simp only [noAdjSameFill, sameSelFill, Bool.and_eq_true,
            Bool.not_eq_true', decide_eq_false_iff_not]
          exact ⟨fun he => hne he.symm, htail⟩
        | navigate u => simpa [noAdjSameFill, sameSelFill] using htail
        | click s t => simpa [noAdjSameFill, sameSelFill] using htail
        | prompt m => simpa [noAdjSameFill, sameSelFill] using htail
        | wait d => simpa [noAdjSameFill, sameSelFill] using htail
      | navigate u =>
        simp only [goodAux] at h
        simpa [noAdjSameFill, sameSelFill] using ih h
      | click s t =>
        simp only [goodAux] at h
        simpa [noAdjSameFill, sameSelFill] using ih h
      | prompt m =>
        simp only [goodAux] at h
        simpa [noAdjSameFill, sameSelFill] using ih h
      | wait d =>
        simp only [goodAux] at h
        simpa [noAdjSameFill, sameSelFill] using ih h

/-- Collapsing a nonempty run of fills on one selector keeps only the last
value: with a pending entry `x` for `sel`, the run ends in `vs.getLastD x`. -/
theorem collapseAux_same_sel_run (sel : String) (vs : List String) (x : String) :
    collapseAux (vs.map (Step.fill sel)) [(sel, Step.fill sel x)]
      = [Step.fill sel (vs.getLastD x)] := by
  induction vs generalizing x with
  | nil => simp [collapseAux, vals]
  | cons v rest ih =>
    show collapseAux (rest.map (Step.fill sel))
        (updateAssoc [(sel, Step.fill sel x)] sel (Step.fill sel v))
      = [Step.fill sel ((v :: rest).getLastD x)]
    rw [show updateAssoc [(sel, Step.fill sel x)] sel (Step.fill sel v)
        = [(sel, Step.fill sel v)] from by simp [updateAssoc]]
    rw [ih v, List.getLastD_cons]

/-- A fill list with pairwise-distinct selectors scans clean. -/
theorem goodAux_distinct_fills (ps : List (String × String)) (seen : List String)
    (hnd : (ps.map Prod.fst).Nodup) (hdisj : ∀ k ∈ ps.map Prod.fst, k ∉ seen) :
    goodAux (ps.map (fun p => Step.fill p.1 p.2)) seen = true := by
  induction ps generalizing seen with
  | nil => rfl
  | cons p rest ih =>
    obtain ⟨sel, v⟩ := p
    have hnotin : sel ∉ seen := hdisj sel (by simp)
    have hnd' : (rest.map Prod.fst).Nodup := (List.nodup_cons.mp hnd).2
    have hsel_rest : sel ∉ rest.map Prod.fst := (List.nodup_cons.mp hnd).1
    show (!(decide (sel ∈ seen)) && _) = true
    rw [decide_eq_false hnotin]
    simp only [Bool.not_false, Bool.true_and]
    exact ih (sel :: seen) hnd' (by
      intro k hk
      simp only [List.mem_cons, not_or]
      exact ⟨fun he => hsel_rest (he ▸ hk), hdisj k (by simp [hk])⟩)

/-- C3: the batch reduction leaves no two adjacent same-selector fills: every
nonempty run of fills on one selector collapses to a single fill carrying the
run's last value, and a run of fills on pairwise-distinct selectors is left
entirely unmerged. -/
theorem c3_collapse_fills_adjacency :
    (∀ steps : List Step, noAdjSameFill (collapse_fills steps) = true)
    ∧ (∀ (sel v : String) (vs : List String),
        collapse_fills ((v :: vs).map (Step.fill sel))
          = [Step.fill sel ((v :: vs).getLastD v)])
    ∧ (∀ ps : List (String × String), (ps.map Prod.fst).Nodup →
        collapse_fills (ps.map (fun p => Step.fill p.1 p.2))
          = ps.map (fun p => Step.fill p.1 p.2)) := by
  refine ⟨?_, ?_, ?_⟩
  · intro steps
    exact noAdjSameFill_of_goodAux
      (goodAux_collapseAux steps [] ⟨List.nodup_nil, by simp⟩)
  · intro sel v vs
    show collapseAux (Step.fill sel v :: vs.map (Step.fill sel)) [] = _
    rw [show collapseAux (Step.fill sel v :: vs.map (Step.fill sel)) []
        = collapseAux (vs.map (Step.fill sel)) [(sel, Step.fill sel v)] from rfl]
    rw [collapseAux_same_sel_run, List.getLastD_cons]
  · intro ps hnd
    unfold collapse_fills
    have hgood := goodAux_distinct_fills ps [] hnd (by simp)
    simpa [vals] using
      collapseAux_fixed (ps.map (fun p => Step.fill p.1 p.2)) [] [] (by simp [keys]) hgood

/-- C3 witness: concrete instances of all three conjuncts. -/
theorem c3_witness :
    noAdjSameFill (collapse_fills
      [Step.fill "#q" "a", Step.fill "#q" "ab", Step.click "#go" "Go",
        Step.fill "#q" "x"]) = true
    ∧ collapse_fills [Step.fill "#q" "a", Step.fill "#q" "ab", Step.fill "#q" "abc"]
        = [Step.fill "#q" "abc"]
    ∧ collapse_fills [Step.fill "#a" "1", Step.fill "#b" "2"]
        = [Step.fill "#a" "1", Step.fill "#b" "2"] := by
  refine ⟨c3_collapse_fills_adjacency.1 _, ?_, ?_⟩
  · have h := c3_collapse_fills_adjacency.2.1 "#q" "a" ["ab", "abc"]
    simpa using h
  · have h := c3_collapse_fills_adjacency.2.2 [("#a", "1"), ("#b", "2")] (by decide)
    simpa using h

/-- The filter the batch pass must preserve: all non-fill steps. -/
def nonFills (l : List Step) : List Step :=
  l.filter fun s =>
    match s with
    | .fill _ _ => false
    | _ => true

theorem nonFills_vals {m : List (String × Step)}
    (hm : ∀ p ∈ m, ∃ v, p.2 = Step.fill p.1 v) : nonFills (vals m) = [] := by
  induction m with
  | nil => rfl
  | cons p rest ih =>
    obtain ⟨k, st⟩ := p
    obtain ⟨v, hv⟩ := hm (k, st) (List.mem_cons_self _ _)
    simp only at hv
    subst hv
    show nonFills (Step.fill k v :: vals rest) = []
    rw [show nonFills (Step.fill k v :: vals rest) = nonFills (vals rest) from rfl]
    exact ih fun q hq => hm q (List.mem_cons_of_mem _ hq)

theorem nonFills_collapseAux (steps : List Step) (m : List (String × Step))
    (hm : ∀ p ∈ m, ∃ v, p.2 = Step.fill p.1 v) :
    nonFills (collapseAux steps m) = nonFills steps := by
  induction steps generalizing m with
  | nil =>
    show nonFills (vals m) = nonFills []
    rw [nonFills_vals hm]
    rfl
  | cons s rest ih =>
    cases s with
    | fill sel v =>
      show nonFills (collapseAux rest (updateAssoc m sel (Step.fill sel v)))
        = nonFills (Step.fill sel v :: rest)
      rw [ih _ (updateAssoc_entries hm)]
      rfl
    | navigate u =>
      show nonFills (vals m ++ Step.navigate u :: collapseAux rest [])
        = nonFills (Step.navigate u :: rest)
      rw [show nonFills (vals m ++ Step.navigate u :: collapseAux rest [])
          = nonFills (vals m) ++ nonFills (Step.navigate u :: collapseAux rest [])
        from List.filter_append _ _, nonFills_vals hm, List.nil_append]
      rw [show nonFills (Step.navigate u :: collapseAux rest [])
          = Step.navigate u :: nonFills (collapseAux rest []) from rfl]
      rw [show nonFills (Step.navigate u :: rest)
          = Step.navigate u :: nonFills rest from rfl]
      rw [ih [] (by simp)]
    | click a b =>
      show nonFills (vals m ++ Step.click a b :: collapseAux rest [])
        = nonFills (Step.click a b :: rest)
      rw [show nonFills (vals m ++ Step.click a b :: collapseAux rest [])
          = nonFills (vals m) ++ nonFills (Step.click a b :: collapseAux rest [])
        from List.filter_append _ _, nonFills_vals hm, List.nil_append]
      rw [show nonFills (Step.click a b :: collapseAux rest [])
          = Step.click a b :: nonFills (collapseAux rest []) from rfl]
      rw [show nonFills (Step.click a b :: rest)
          = Step.click a b :: nonFills rest from rfl]
      rw [ih [] (by simp)]
    | prompt msg =>
      show nonFills (vals m ++ Step.prompt msg :: collapseAux rest [])
        = nonFills (Step.prompt msg :: rest)
      rw [show nonFills (vals m ++ Step.prompt msg :: collapseAux rest [])
          = nonFills (vals m) ++ nonFills (Step.prompt msg :: collapseAux rest [])
        from List.filter_append _ _, nonFills_vals hm, List.nil_append]
      rw [show nonFills (Step.prompt msg :: collapseAux rest [])
          = Step.prompt msg :: nonFills (collapseAux rest []) from rfl]
      rw [show nonFills (Step.prompt msg :: rest)
          = Step.prompt msg :: nonFills rest from rfl]
      rw [ih [] (by simp)]
    | wait d =>
      show nonFills (vals m ++ Step.wait d :: collapseAux rest [])
        = nonFills (Step.wait d :: rest)
      rw [show nonFills (vals m ++ Step.wait d :: collapseAux rest [])
          = nonFills (vals m) ++ nonFills (Step.wait d :: collapseAux rest [])
        from List.filter_append _ _, nonFills_vals hm, List.nil_append]
      rw [show nonFills (Step.wait d :: collapseAux rest [])
          = Step.wait d :: nonFills (collapseAux rest []) from rfl]
      rw [show nonFills (Step.wait d :: rest)
          = Step.wait d :: nonFills rest from rfl]
      rw [ih [] (by simp)]

/-- C10: the batch reduction never drops, duplicates, or reorders non-fill
steps: the subsequence of non-fill steps of the output equals, element for
element and in order, the subsequence of non-fill steps of the input. -/
theorem c10_collapse_preserves_non_fills (steps : List Step) :
    nonFills (collapse_fills steps) = nonFills steps :=
  nonFills_collapseAux steps [] (by simp)

/-- Splits a character stream at the first closing brace: the maximal run of
non-closing-brace characters (the regex class scan) and the remainder, which
is either empty or starts with the closing brace. -/
def spanToBrace : List Char → List Char × List Char
  | [] => ([], [])
  | c :: rest =>
    if c = '}' then ([], c :: rest)
    else
      let p := spanToBrace rest
      (c :: p.1, p.2)

/-- The regex search of `_extract_placeholders` over a character list: at an
opening brace, a maximal nonempty run of non-closing-brace characters followed
by a closing brace is a match whose run is the captured token, and scanning
resumes after the closing brace; otherwise scanning advances one character.
Each step consumes at least one character, so the input length (supplied as
`fuel` by the `findPlaceholders` wrapper) bounds the recursion. -/
def findPlaceholdersAux : Nat → List Char → List String
  | _, [] => []
  | 0, _ :: _ => []
  | fuel + 1, c :: rest =>
    if c = '{' then
      match spanToBrace rest with
      | (tok, '}' :: after) =>
        if tok.isEmpty then findPlaceholdersAux fuel rest
        else String.mk tok :: findPlaceholdersAux fuel after
      | (_, _) => findPlaceholdersAux fuel rest
    else findPlaceholdersAux fuel rest

/-- `re.findall` of the placeholder pattern over the characters of a value. -/
def findPlaceholders (l : List Char) : List String :=
  findPlaceholdersAux l.length l

theorem findPlaceholders_cons_of_ne {c : Char} (rest : List Char)
    (hc : ¬ c = '{') : findPlaceholders (c :: rest) = findPlaceholders rest := by
  show findPlaceholdersAux (rest.length + 1) (c :: rest)
    = findPlaceholdersAux rest.length rest
  cases rest with
  | nil => simp only [findPlaceholdersAux, if_neg hc]
  | cons d tail => simp only [findPlaceholdersAux, if_neg hc]

/-- The `value` field lookup of `_extract_placeholders`: only fill steps carry
a string `value` field. -/
def stepValue : Step → Option String
  | .fill _ v => some v
  | _ => none

/-- One iteration of the `_extract_placeholders` loop body. -/
def addPlaceholders (acc : Finset String) (s : Step) : Finset String :=
  match stepValue s with
  | some v => acc ∪ (findPlaceholders v.data).toFinset
  | none => acc

/-- `RecipeRecorder._extract_placeholders`: the set of tokens accumulated over
all steps (the Python code returns this set as a list in unspecified order). -/
def extract_placeholders (steps : List Step) : Finset String :=
  steps.foldl addPlaceholders ∅

theorem mem_foldl_addPlaceholders (steps : List Step) (acc : Finset String)
    (t : String) :
    t ∈ steps.foldl addPlaceholders acc
      ↔ t ∈ acc ∨ ∃ sel v, Step.fill sel v ∈ steps ∧ t ∈ findPlaceholders v.data := by
  induction steps generalizing acc with
  | nil => simp
  | cons s rest ih =>
    rw [List.foldl_cons, ih]
    cases s with
    | fill sel v =>
      simp only [addPlaceholders, stepValue, Finset.mem_union, List.mem_toFinset,
        List.mem_cons]
      constructor
      · rintro ((ht | ht) | ⟨sel2, v2, hmem, ht⟩)
        · exact Or.inl ht
        · exact Or.inr ⟨sel, v, Or.inl rfl, ht⟩
        · exact Or.inr ⟨sel2, v2, Or.inr hmem, ht⟩
      · rintro (ht | ⟨sel2, v2, (heq | hmem), ht⟩)
        · exact Or.inl (Or.inl ht)
        · cases heq
          exact Or.inl (Or.inr ht)
        · exact Or.inr ⟨sel2, v2, hmem, ht⟩
    | navigate u =>
      simp only [addPlaceholders, stepValue, List.mem_cons]
      constructor
      · rintro (ht | ⟨sel2, v2, hmem, ht⟩)
        · exact Or.inl ht
        · exact Or.inr ⟨sel2, v2, Or.inr hmem, ht⟩
      · rintro (ht | ⟨sel2, v2, (heq | hmem), ht⟩)
        · exact Or.inl ht
        · cases heq
        · exact Or.inr ⟨sel2, v2, hmem, ht⟩
    | click a b =>
      simp only [addPlaceholders, stepValue, List.mem_cons]
      constructor
      · rintro (ht | ⟨sel2, v2, hmem, ht⟩)
        · exact Or.inl ht
        · exact Or.inr ⟨sel2, v2, Or.inr hmem, ht⟩
      · rintro (ht | ⟨sel2, v2, (heq | hmem), ht⟩)
        · exact Or.inl ht
        · cases heq
        · exact Or.inr ⟨sel2, v2, hmem, ht⟩
    | prompt msg =>
      simp only [addPlaceholders, stepValue, List.mem_cons]
      constructor
      · rintro (ht | ⟨sel2, v2, hmem, ht⟩)
        · exact Or.inl ht
        · exact Or.inr ⟨sel2, v2, Or.inr hmem, ht⟩
      · rintro (ht | ⟨sel2, v2, (heq | hmem), ht⟩)
        · exact Or.inl ht
        · cases heq
        · exact Or.inr ⟨sel2, v2, hmem, ht⟩
    | wait d =>
      simp only [addPlaceholders, stepValue, List.mem_cons]
      constructor
      · rintro (ht | ⟨sel2, v2, hmem, ht⟩)
        · exact Or.inl ht
        · exact Or.inr ⟨sel2, v2, Or.inr hmem, ht⟩
      · rintro (ht | ⟨sel2, v2, (heq | hmem), ht⟩)
        · exact Or.inl ht
        · cases heq
        · exact Or.inr ⟨sel2, v2, hmem, ht⟩

theorem findPlaceholders_of_no_open {l : List Char} (h : '{' ∉ l) :
    findPlaceholders l = [] := by
  induction l with
  | nil => rfl
  | cons c rest ih =>
    have hc : ¬ c = '{' := fun he => h (by simp [he])
    have hrest : '{' ∉ rest := fun hm => h (List.mem_cons_of_mem _ hm)
    rw [findPlaceholders_cons_of_ne rest hc]
    exact ih hrest

/-- C7: placeholder extraction returns exactly the set of brace-delimited
tokens of the fill values: membership characterization, the two-token example,
a brace-free value contributes nothing, and a token occurring in several steps
appears only once. -/
theorem c7_extract_placeholders :
    (∀ (t : String) (steps : List Step),
        t ∈ extract_placeholders steps
          ↔ ∃ sel v, Step.fill sel v ∈ steps ∧ t ∈ findPlaceholders v.data)
    ∧ extract_placeholders [Step.fill "#msg" "Hello {name}, your code is {otp}"]
        = {"name", "otp"}
    ∧ (∀ (sel v : String) (steps : List Step), '{' ∉ v.data →
        extract_placeholders (Step.fill sel v :: steps) = extract_placeholders steps)
    ∧ (∀ s1 s2 v : String,
        extract_placeholders [Step.fill s1 v, Step.fill s2 v]
          = extract_placeholders [Step.fill s1 v]) := by
  refine ⟨?_, ?_, ?_, ?_⟩
  · intro t steps
    rw [extract_placeholders, mem_foldl_addPlaceholders]
    simp
  · decide
  · intro sel v steps h
    show (Step.fill sel v :: steps).foldl addPlaceholders ∅ = extract_placeholders steps
    rw [List.foldl_cons,
      show addPlaceholders ∅ (Step.fill sel v)
        = ∅ ∪ (findPlaceholders v.data).toFinset from rfl,
      findPlaceholders_of_no_open h]
    rfl
  · intro s1 s2 v
    show addPlaceholders (addPlaceholders ∅ (Step.fill s1 v)) (Step.fill s2 v)
      = addPlaceholders ∅ (Step.fill s1 v)
    simp [addPlaceholders, stepValue, Finset.union_assoc]

/-- C7 witness: a brace-free fill value contributes no placeholder. -/
theorem c7_witness :
    extract_placeholders [Step.fill "#q" "abc"]
      = extract_placeholders ([] : List Step) :=
  c7_extract_placeholders.2.2.1 "#q" "abc" [] (by decide)

/-!
Replay engine (`RecipeRunnerUI.run_recipe`).  The external browser driver is
an oracle: `fails` tells which driver calls raise.  The trace records, in
order, the driver calls attempted, the cooperative sleeps (in seconds, as
passed to `asyncio.sleep`), the log lines that carry semantics (unknown
action, final error/success), and the session close.
-/

/-- A call into the external browser driver. -/
inductive DCall where
  | navigate (url : String)
  | click (selector : String)
  | fill (selector value : String)
deriving DecidableEq

/-- An observable event of one replay run. -/
inductive Ev where
  | call (c : DCall)
  | sleep (seconds : ℚ)
  | logUnknown (action : String)
  | logError
  | logSuccess
  | close
deriving DecidableEq

/-- The `for` loop of `run_recipe`: returns the event trace of the loop and
whether it completed without a driver error.  A failing driver call is still
attempted (it appears in the trace) but aborts the rest of the sequence.  The
`fill` value is `inputs.get(selector, recorded)`; a `wait` sleeps
`delay / 1000` seconds; any other action is logged as unknown and skipped. -/
def runSteps (fails : DCall → Bool) (inputs : String → Option String) :
    List Step → List Ev × Bool
  | [] => ([], true)
  | .navigate url :: rest =>
    if fails (.navigate url) then ([Ev.call (.navigate url)], false)
    else
      let r := runSteps fails inputs rest
      (Ev.call (.navigate url) :: r.1, r.2)
  | .click sel _ :: rest =>
    if fails (.click sel) then ([Ev.call (.click sel)], false)
    else
      let r := runSteps fails inputs rest
      (Ev.call (.click sel) :: r.1, r.2)
  | .fill sel v :: rest =>
    let value := (inputs sel).getD v
    if fails (.fill sel value) then ([Ev.call (.fill sel value)], false)
    else
      let r := runSteps fails inputs rest
      (Ev.call (.fill sel value) :: r.1, r.2)
  | .wait d :: rest =>
    let r := runSteps fails inputs rest
    (Ev.sleep ((d : ℚ) / 1000) :: r.1, r.2)
  | .prompt _ :: rest =>
    let r := runSteps fails inputs rest
    (Ev.logUnknown "prompt" :: r.1, r.2)

/-- `RecipeRunnerUI.run_recipe`: the loop inside `try`, the success log or the
caught-error log, then the `finally` block (a 3-second sleep and the single
`browser.close()`). -/
def run_recipe (fails : DCall → Bool) (inputs : String → Option String)
    (steps : List Step) : List Ev :=
  (runSteps fails inputs steps).1
    ++ [if (runSteps fails inputs steps).2 then Ev.logSuccess else Ev.logError]
    ++ [Ev.sleep 3, Ev.close]

/-- The driver call a step issues, if any (`prompt` and `wait` issue none). -/
def stepCall (inputs : String → Option String) : Step → Option DCall
  | .navigate url => some (.navigate url)
  | .click sel _ => some (.click sel)
  | .fill sel v => some (.fill sel ((inputs sel).getD v))
  | .prompt _ => none
  | .wait _ => none

/-- Every driver call issued by these steps succeeds under `fails`. -/
def succeedsAll (fails : DCall → Bool) (inputs : String → Option String)
    (l : List Step) : Prop :=
  ∀ s ∈ l, ∀ c, stepCall inputs s = some c → fails c = false

/-- C4: during replay of a fill step, the value handed to the driver is the
override map's entry for the selector when present (even the empty string),
and the recorded value otherwise; with an empty override map the recorded
value is used. -/
theorem c4_fill_override_resolution (fails : DCall → Bool)
    (inputs : String → Option String) (sel v : String) (rest : List Step) :
    (∀ ov, inputs sel = some ov →
        (runSteps fails inputs (Step.fill sel v :: rest)).1.head?
          = some (Ev.call (DCall.fill sel ov)))
    ∧ (inputs sel = none →
        (runSteps fails inputs (Step.fill sel v :: rest)).1.head?
          = some (Ev.call (DCall.fill sel v)))
    ∧ (runSteps fails (fun _ => none) (Step.fill sel v :: rest)).1.head?
        = some (Ev.call (DCall.fill sel v)) := by
  refine ⟨?_, ?_, ?_⟩
  · intro ov hov
    simp only [runSteps, hov, Option.getD_some]
    by_cases hf : fails (DCall.fill sel ov)
    · simp [hf]
    · simp [hf]
  · intro hnone
    simp only [runSteps, hnone, Option.getD_none]
    by_cases hf : fails (DCall.fill sel v)
    · simp [hf]
    · simp [hf]
  · simp only [runSteps, Option.getD_none]
    by_cases hf : fails (DCall.fill sel v)
    · simp [hf]
    · simp [hf]

/-- C4 witness: an override (even one mapping to a different value) wins, and
the empty override map falls back to the recorded value. -/
theorem c4_witness :
    ((runSteps (fun _ => false)
        (fun s => if s = "#q" then some "override-value" else none)
        [Step.fill "#q" "abc"]).1.head?
      = some (Ev.call (DCall.fill "#q" "override-value")))
    ∧ ((runSteps (fun _ => false) (fun _ => none) [Step.fill "#q" "abc"]).1.head?
      = some (Ev.call (DCall.fill "#q" "abc"))) :=
  ⟨(c4_fill_override_resolution (fun _ => false)
      (fun s => if s = "#q" then some "override-value" else none)
      "#q" "abc" []).1 "override-value" (by simp),
   (c4_fill_override_resolution (fun _ => false) (fun _ => none)
      "#q" "abc" []).2.2⟩

theorem close_not_mem_runSteps (fails : DCall → Bool)
    (inputs : String → Option String) (steps : List Step) :
    Ev.close ∉ (runSteps fails inputs steps).1 := by
  induction steps with
  | nil => simp [runSteps]
  | cons s rest ih =>
    cases s with
    | navigate url =>
      by_cases hf : fails (.navigate url)
      · simp [runSteps, hf]
      · simpa [runSteps, hf] using ih
    | click sel t =>
      by_cases hf : fails (.click sel)
      · simp [runSteps, hf]
      · simpa [runSteps, hf] using ih
    | fill sel v =>
      by_cases hf : fails (.fill sel ((inputs sel).getD v))
      · simp [runSteps, hf]
      · simpa [runSteps, hf] using ih
    | prompt msg => simpa [runSteps] using ih
    | wait d => simpa [runSteps] using ih

theorem runSteps_append_of_succeeds (fails : DCall → Bool)
    (inputs : String → Option String) (pre l : List Step)
    (h : succeedsAll fails inputs pre) :
    runSteps fails inputs (pre ++ l)
      = ((runSteps fails inputs pre).1 ++ (runSteps fails inputs l).1,
         (runSteps fails inputs l).2) := by
  induction pre with
  | nil => simp [runSteps]
  | cons s rest ih =>
    have hrest : succeedsAll fails inputs rest :=
      fun s2 hs2 => h s2 (List.mem_cons_of_mem _ hs2)
    cases s with
    | navigate url =>
      have hok : fails (DCall.navigate url) = false :=
        h (Step.navigate url) (List.mem_cons_self _ _) _ rfl
      simp [runSteps, hok, ih hrest]
    | click sel t =>
      have hok : fails (DCall.click sel) = false :=
        h (Step.click sel t) (List.mem_cons_self _ _) _ rfl
      simp [runSteps, hok, ih hrest]
    | fill sel v =>
      have hok : fails (DCall.fill sel ((inputs sel).getD v)) = false :=
        h (Step.fill sel v) (List.mem_cons_self _ _) _ rfl
      simp [runSteps, hok, ih hrest]
    | prompt msg => simp [runSteps, ih hrest]
    | wait d => simp [runSteps, ih hrest]

theorem runSteps_failing_head (fails : DCall → Bool)
    (inputs : String → Option String) (s : Step) (c : DCall)
    (hcall : stepCall inputs s = some c) (hfail : fails c = true)
    (rest : List Step) : runSteps fails inputs (s :: rest) = ([Ev.call c], false) := by
  cases s with
  | navigate url =>
    simp only [stepCall, Option.some.injEq] at hcall
    subst hcall
    simp [runSteps, hfail]
  | click sel t =>
    simp only [stepCall, Option.some.injEq] at hcall
    subst hcall
    simp [runSteps, hfail]
  | fill sel v =>
    simp only [stepCall, Option.some.injEq] at hcall
    subst hcall
    simp [runSteps, hfail]
  | prompt msg => simp [stepCall] at hcall
  | wait d => simp [stepCall] at hcall

/-- C5: the browser session is closed exactly once and as the very last event
on every run (success or failure); and when every step before `s` succeeds but
the driver call of `s` fails, replay is identical whether or not further steps
follow `s` (nothing after the failing step is ever attempted) and the error is
reported. -/
theorem c5_failure_aborts_and_close_once :
    (∀ (fails : DCall → Bool) (inputs : String → Option String) (steps : List Step),
        (run_recipe fails inputs steps).count Ev.close = 1
        ∧ (run_recipe fails inputs steps).getLast? = some Ev.close)
    ∧ (∀ (fails : DCall → Bool) (inputs : String → Option String)
        (pre : List Step) (s : Step) (post : List Step) (c : DCall),
        succeedsAll fails inputs pre → stepCall inputs s = some c →
        fails c = true →
        run_recipe fails inputs (pre ++ s :: post)
            = run_recipe fails inputs (pre ++ [s])
          ∧ Ev.logError ∈ run_recipe fails inputs (pre ++ s :: post)) := by
  constructor
  · intro fails inputs steps
    have hnm := close_not_mem_runSteps fails inputs steps
    constructor
    · unfold run_recipe
      cases h2 : (runSteps fails inputs steps).2 <;>
        simp [h2, List.count_append, List.count_cons,
          List.count_eq_zero_of_not_mem hnm]
    · unfold run_recipe
      have hsplit : (runSteps fails inputs steps).1
            ++ [if (runSteps fails inputs steps).2 then Ev.logSuccess else Ev.logError]
            ++ [Ev.sleep 3, Ev.close]
          = ((runSteps fails inputs steps).1
              ++ [if (runSteps fails inputs steps).2 then Ev.logSuccess else Ev.logError]
              ++ [Ev.sleep 3]) ++ [Ev.close] := by
        simp
      rw [hsplit, List.getLast?_concat]
  · intro fails inputs pre s post c hpre hcall hfail
    have h1 := runSteps_append_of_succeeds fails inputs pre (s :: post) hpre
    have h2 := runSteps_append_of_succeeds fails inputs pre [s] hpre
    rw [runSteps_failing_head fails inputs s c hcall hfail post] at h1
    rw [runSteps_failing_head fails inputs s c hcall hfail []] at h2
    constructor
    · unfold run_recipe
      rw [h1, h2]
    · unfold run_recipe
      rw [h1]
      simp

/-- C5 witness: a driver failing exactly on `click "#submit"` aborts the run
at that step — the trailing click contributes nothing to the trace — and the
session close still happens exactly once. -/
theorem c5_witness :
    (run_recipe (fun c => decide (c = DCall.click "#submit")) (fun _ => none)
        [Step.navigate "https://example.test", Step.fill "#q" "abc",
          Step.click "#submit" "Go", Step.click "#after" ""]).count Ev.close = 1
    ∧ run_recipe (fun c => decide (c = DCall.click "#submit")) (fun _ => none)
        ([Step.navigate "https://example.test", Step.fill "#q" "abc"]
          ++ Step.click "#submit" "Go" :: [Step.click "#after" ""])
      = run_recipe (fun c => decide (c = DCall.click "#submit")) (fun _ => none)
        ([Step.navigate "https://example.test", Step.fill "#q" "abc"]
          ++ [Step.click "#submit" "Go"]) := by
  have hpre : succeedsAll (fun c => decide (c = DCall.click "#submit"))
      (fun _ => none)
      [Step.navigate "https://example.test", Step.fill "#q" "abc"] := by
    intro s2 hs2 c2 hc2
    simp only [List.mem_cons, List.not_mem_nil, or_false] at hs2
    rcases hs2 with h | h
    · subst h
      simp only [stepCall, Option.some.injEq] at hc2
      subst hc2
      decide
    · subst h
      simp only [stepCall, Option.some.injEq] at hc2
      subst hc2
      decide
  constructor
  · exact (c5_failure_aborts_and_close_once.1
      (fun c => decide (c = DCall.click "#submit")) (fun _ => none)
      [Step.navigate "https://example.test", Step.fill "#q" "abc",
        Step.click "#submit" "Go", Step.click "#after" ""]).1
  · exact (c5_failure_aborts_and_close_once.2
      (fun c => decide (c = DCall.click "#submit")) (fun _ => none)
      [Step.navigate "https://example.test", Step.fill "#q" "abc"]
      (Step.click "#submit" "Go") [Step.click "#after" ""]
      (DCall.click "#submit") hpre rfl (by decide)).1

/-- C6: a wait step suspends for `delay / 1000` seconds — the step's delay
field interpreted as milliseconds — and then continues with the next step. -/
theorem c6_wait_sleeps_delay_ms (fails : DCall → Bool)
    (inputs : String → Option String) (d : Nat) (rest : List Step) :
    runSteps fails inputs (Step.wait d :: rest)
      = (Ev.sleep ((d : ℚ) / 1000) :: (runSteps fails inputs rest).1,
         (runSteps fails inputs rest).2)
    ∧ ((d : ℚ) / 1000) * 1000 = (d : ℚ) := by
  constructor
  · rfl
  · exact div_mul_cancel₀ _ (by norm_num)

/-!
Persistence (`RecipeRecorder._save_recipe`).  The filesystem and `json`
library are external; their observable outcomes at save time are the oracle
`FileState`: the file may be absent, present but with empty or unparsable
content, or parsed into a store document.
-/

/-- A persisted recipe: name, description and the derived fields computed at
save time (the `created` timestamp comes from the external clock and is
omitted, as for steps). -/
structure Recipe where
  name : String
  description : String
  steps : List Step
  placeholders : Finset String
deriving DecidableEq

/-- The persisted document `{"recipes": [...]}`. -/
structure Store where
  recipes : List Recipe
deriving DecidableEq

/-- What reading `recipes.json` at save time can yield. -/
inductive FileState where
  | absent
  | corrupt
  | ok (s : Store)

/-- The read phase of `_save_recipe`: start from `{"recipes": []}`; keep it if
the file does not exist; on empty content or a parse/OS error reinitialize to
`{"recipes": []}`; otherwise use the parsed document. -/
def readStore : FileState → Store
  | .absent => ⟨[]⟩
  | .corrupt => ⟨[]⟩
  | .ok s => s

/-- `RecipeRecorder._save_recipe`: flush the pending live-dedup fills, collapse
the accumulated steps once more, derive the placeholder set, build the recipe,
read the store, append the recipe to the list just read, and rewrite the whole
document. -/
def save_recipe (name description : String) (st : RecState) (fs : FileState) :
    Store :=
  let steps := st.steps ++ vals st.pending
  let collapsed := collapse_fills steps
  let recipe : Recipe := ⟨name, description, collapsed,
    extract_placeholders collapsed⟩
  ⟨(readStore fs).recipes ++ [recipe]⟩

/-- C9: on save, an absent file reads as the empty store, empty or unparsable
content reinitializes to the empty store, the new recipe is appended to the
recipe list read at save time, and every previously readable recipe is
written back unchanged at its original position. -/
theorem c9_save_recipe_store_handling :
    readStore FileState.absent = ⟨[]⟩
    ∧ readStore FileState.corrupt = ⟨[]⟩
    ∧ (∀ (name description : String) (st : RecState) (fs : FileState),
        (save_recipe name description st fs).recipes
          = (readStore fs).recipes
            ++ [⟨name, description, collapse_fills (st.steps ++ vals st.pending),
                extract_placeholders
                  (collapse_fills (st.steps ++ vals st.pending))⟩])
    ∧ (∀ (name description : String) (st : RecState) (s : Store) (i : Nat),
        i < s.recipes.length →
        (save_recipe name description st (FileState.ok s)).recipes[i]?
          = s.recipes[i]?) := by
  refine ⟨rfl, rfl, fun name description st fs => rfl, ?_⟩
  intro name description st s i hi
  show (s.recipes ++ [_])[i]? = _
  rw [List.getElem?_append_left hi]

/-- C9 witness: appending to a one-recipe store leaves that recipe at index
zero unchanged. -/
theorem c9_witness :
    (save_recipe "login" "demo" ⟨[], []⟩
        (FileState.ok ⟨[⟨"old", "", [Step.navigate "https://a.test"], ∅⟩]⟩)).recipes[0]?
      = some ⟨"old", "", [Step.navigate "https://a.test"], ∅⟩ :=
  c9_save_recipe_store_handling.2.2.2 "login" "demo" ⟨[], []⟩
    ⟨[⟨"old", "", [Step.navigate "https://a.test"], ∅⟩]⟩ 0 (by decide)

/-!
Selector synthesizer: the `getUniqueSelector` function of the injected page
script.  `document.querySelectorAll(sel).length` and the browser builtin
`CSS.escape` are external capabilities, passed as the oracles `count` and
`cssEscape`.
-/

/-- JS `className.split(/\x7bs+/ with backslash-s)`: fields between maximal
whitespace runs; a leading or trailing run contributes an empty field, and the
empty string yields one empty field.  Each step consumes at least one
character, so the input length (supplied as fuel by `jsSplitWS`) bounds the
recursion. -/
def splitWSAux : Nat → List Char → List Char → List String
  | _, [], cur => [String.mk cur.reverse]
  | 0, _ :: _, cur => [String.mk cur.reverse]
  | fuel + 1, c :: rest, cur =>
    if c.isWhitespace then
      String.mk cur.reverse
        :: splitWSAux fuel (rest.dropWhile Char.isWhitespace) []
    else splitWSAux fuel rest (c :: cur)

/-- `str.split` on runs of whitespace, as the page script applies it to
`el.className`. -/
def jsSplitWS (s : String) : List String := splitWSAux s.data.length s.data []

/-- A DOM element as the injected script reads it: `el.id` and `el.name` are
`""` when missing (JS falsy), a missing `getAttribute` result is `null`
(modelled `none`, and `""` is also falsy), plus the class string, tag name,
parent element (if any) and the element's 0-based index among its parent's
children (the script computes `children.indexOf(el)` and adds 1 for
`:nth-child`). -/
inductive Elem where
  | mk (id name : String) (ariaLabel placeholder : Option String)
      (className tagName : String) (parent : Option Elem) (childIdx : Nat)

/-- JS truthiness of a `getAttribute` result: `null` and `""` are falsy. -/
def truthyOpt : Option String → Bool
  | some s => decide (s ≠ "")
  | none => false

/-- The injected `getUniqueSelector`: ordered first-match-wins precedence over
unique id, unique name, unique aria-label, unique placeholder, unique
tag-plus-first-three-classes, then the recursive parent chain with
`:nth-child`, and finally the lowercase tag name alone. -/
def getUniqueSelector (count : String → Nat) (cssEscape : String → String) :
    Elem → String
  | .mk id name aria ph cls tag parent childIdx =>
    if id ≠ "" ∧ count ("#" ++ cssEscape id) = 1 then
      "#" ++ cssEscape id
    else if name ≠ "" ∧ count ("[name=\"" ++ name ++ "\"]") = 1 then
      "[name=\"" ++ name ++ "\"]"
    else if truthyOpt aria = true
        ∧ count ("[aria-label=\"" ++ aria.getD "" ++ "\"]") = 1 then
      "[aria-label=\"" ++ aria.getD "" ++ "\"]"
    else if truthyOpt ph = true
        ∧ count ("[placeholder=\"" ++ ph.getD "" ++ "\"]") = 1 then
      "[placeholder=\"" ++ ph.getD "" ++ "\"]"
    else
      let classes :=
        String.join (((jsSplitWS cls).take 3).map fun c => "." ++ cssEscape c)
      if cls ≠ "" ∧ classes ≠ "" ∧ count (tag.toLower ++ classes) = 1 then
        tag.toLower ++ classes
      else
        match parent with
        | some p =>
          let parentSelector := getUniqueSelector count cssEscape p
          if parentSelector ≠ "" then
            parentSelector ++ " > " ++ tag.toLower ++ ":nth-child("
              ++ toString (childIdx + 1) ++ ")"
          else tag.toLower
        | none => tag.toLower

/-- C8: selector synthesis precedence — an element with a non-empty,
document-wide-unique `id` gets the `#id` selector even when its `name`
attribute is non-empty and document-wide unique; the `[name="…"]` form is
never chosen for it. -/
theorem c8_id_wins_over_name (count : String → Nat) (cssEscape : String → String)
    (id name : String) (aria ph : Option String) (cls tag : String)
    (parent : Option Elem) (childIdx : Nat)
    (hid : id ≠ "") (hidUnique : count ("#" ++ cssEscape id) = 1)
    (hname : name ≠ "") (hnameUnique : count ("[name=\"" ++ name ++ "\"]") = 1) :
    getUniqueSelector count cssEscape
        (Elem.mk id name aria ph cls tag parent childIdx)
      = "#" ++ cssEscape id := by
  rw [getUniqueSelector.eq_def]
  dsimp only
  rw [if_pos ⟨hid, hidUnique⟩]

/-- C8 witness: an input with unique id `login` and unique name `user` is
synthesized as `#login`. -/
theorem c8_witness :
    getUniqueSelector
        (fun s => if s = "#login" ∨ s = "[name=\"user\"]" then 1 else 0)
        (fun s => s)
        (Elem.mk "login" "user" none none "" "INPUT" none 0)
      = "#" ++ "login" :=
  c8_id_wins_over_name
    (fun s => if s = "#login" ∨ s = "[name=\"user\"]" then 1 else 0)
    (fun s => s) "login" "user" none none "" "INPUT" none 0
    (by decide) (by decide) (by decide) (by decide)
